import Mathlib

/-!
Verification of the Paillier-based privacy-preserving analytics engine of
`backend/app/homomorphic_encryption.py`.

The Python code is embedded shallowly:
* arbitrary-precision Python integers become `ℕ` (or `ℤ` where a value may be
  negative, such as the plaintext argument of `encrypt` and the Bézout
  coefficients of the extended Euclidean algorithm);
* code that can raise an exception returns `Option` (`none` models the raise);
* the random blinding factor drawn inside `encrypt` is passed as an explicit
  argument, quantified over in the theorems exactly as the claims quantify it.
-/

namespace DSPC

/-- `L` function for Paillier: `L(x, n) = (x - 1) / n` (integer division).
Mirrors `PaillierCrypto._L`. -/
def L (x n : ℕ) : ℕ := (x - 1) / n

/-- Extended Euclidean algorithm returning `(g, x, y)` with `a·x + b·y = g`.
Mirrors `PaillierCrypto._extended_gcd`, including its recursion
`extended_gcd (b % a) a`. -/
def extended_gcd (a b : ℕ) : ℕ × ℤ × ℤ :=
  if h : a = 0 then (b, 0, 1)
  else
    let r := extended_gcd (b % a) a
    (r.1, r.2.2 - ((b / a : ℕ) : ℤ) * r.2.1, r.2.1)
termination_by a
decreasing_by exact Nat.mod_lt _ (Nat.pos_of_ne_zero h)

/-- Modular multiplicative inverse via the extended Euclidean algorithm;
`none` models the `Modular inverse does not exist` exception.
Mirrors `PaillierCrypto._mod_inverse` (Python's `x % m` on a positive modulus
is the nonnegative representative, hence `Int.emod` followed by `toNat`). -/
def mod_inverse (a m : ℕ) : Option ℕ :=
  let r := extended_gcd a m
  if r.1 ≠ 1 then none else some ((r.2.1 % (m : ℤ)).toNat)

/-- The key material of `PaillierCrypto.__init__`: the two primes produced by
`_generate_primes`.  All derived attributes (`n`, `n_squared`, `g`,
`lambda_val`, `mu`) are functions of these. -/
structure PaillierCrypto where
  p : ℕ
  q : ℕ
deriving DecidableEq

namespace PaillierCrypto

/-- `self.n = self.p * self.q`. -/
def n (c : PaillierCrypto) : ℕ := c.p * c.q

/-- `self.n_squared = self.n * self.n`. -/
def n_squared (c : PaillierCrypto) : ℕ := c.n * c.n

/-- `self.g = self.n + 1`. -/
def g (c : PaillierCrypto) : ℕ := c.n + 1

/-- `self.lambda_val = lcm(p - 1, q - 1)`. -/
def lambda_val (c : PaillierCrypto) : ℕ := Nat.lcm (c.p - 1) (c.q - 1)

/-- `self.mu = mod_inverse(L(g ** lambda mod n², n), n)`; `none` when the
modular inverse does not exist (in which case `__init__` raises). -/
def mu (c : PaillierCrypto) : Option ℕ :=
  mod_inverse (L (c.g ^ c.lambda_val % c.n_squared) c.n) c.n

/-- Python's three-argument `pow b e m` for a possibly negative exponent `e`:
for `e < 0` it inverts the base modulo `m` (raising `ValueError` — here
`none` — when the inverse does not exist) and exponentiates the inverse. -/
def pow_mod (b : ℕ) (e : ℤ) (m : ℕ) : Option ℕ :=
  if 0 ≤ e then some (b ^ e.toNat % m)
  else (mod_inverse (b % m) m).map (fun binv => binv ^ (-e).toNat % m)

/-- `PaillierCrypto.encrypt`.  The guard mirrors the source exactly:
`if plaintext >= self.n: raise ValueError(...)`.  The blinding factor `r`
(drawn by `random.randint` in the source) is an explicit argument. -/
def encrypt (c : PaillierCrypto) (plaintext : ℤ) (r : ℕ) : Option ℕ :=
  if (c.n : ℤ) ≤ plaintext then none
  else (pow_mod c.g plaintext c.n_squared).map
    (fun gm => gm * (r ^ c.n % c.n_squared) % c.n_squared)

/-- `PaillierCrypto.decrypt`: `x = c ** λ mod n²; (L(x, n) * μ) % n`.
`none` models the absence of a usable `mu` (the constructor raised). -/
def decrypt (c : PaillierCrypto) (ciphertext : ℕ) : Option ℕ :=
  c.mu.map (fun m => L (ciphertext ^ c.lambda_val % c.n_squared) c.n * m % c.n)

/-- `PaillierCrypto.add_encrypted`: `(c1 * c2) % n²`. -/
def add_encrypted (c : PaillierCrypto) (c1 c2 : ℕ) : ℕ := c1 * c2 % c.n_squared

/-- `PaillierCrypto.add_constant`: `(ct * pow(g, k, n²)) % n²`. -/
def add_constant (c : PaillierCrypto) (ct k : ℕ) : ℕ :=
  ct * (c.g ^ k % c.n_squared) % c.n_squared

/-- `PaillierCrypto.multiply_constant`: `pow(ct, k, n²)`. -/
def multiply_constant (c : PaillierCrypto) (ct k : ℕ) : ℕ := ct ^ k % c.n_squared

end PaillierCrypto

/-! ### Correctness of the modular-arithmetic utilities -/

/-- `extended_gcd` returns the gcd together with Bézout coefficients. -/
theorem extended_gcd_spec (a : ℕ) :
    ∀ b : ℕ, (extended_gcd a b).1 = Nat.gcd a b ∧
      (a : ℤ) * (extended_gcd a b).2.1 + (b : ℤ) * (extended_gcd a b).2.2
        = ((extended_gcd a b).1 : ℤ) := by
  induction a using Nat.strong_induction_on with
  | _ a ih =>
    intro b
    rw [extended_gcd]
    split
    · next h =>
      subst h
      refine ⟨by simp, by push_cast; ring⟩
    · next h =>
      obtain ⟨h1, h2⟩ := ih (b % a) (Nat.mod_lt _ (Nat.pos_of_ne_zero h)) a
      have hc : ((b % a : ℕ) : ℤ) + (a : ℤ) * ((b / a : ℕ) : ℤ) = (b : ℤ) := by
        exact_mod_cast congrArg (Nat.cast (R := ℤ)) (Nat.mod_add_div b a)
      refine ⟨?_, ?_⟩
      · dsimp only
        rw [h1, ← Nat.gcd_rec]
      · dsimp only
        rw [h1] at h2 ⊢
        linear_combination h2 - (extended_gcd (b % a) a).2.1 * hc

/-- `mod_inverse` succeeds exactly when the gcd is `1`. -/
theorem mod_inverse_isSome (a m : ℕ) :
    (mod_inverse a m).isSome = true ↔ Nat.gcd a m = 1 := by
  obtain ⟨h1, -⟩ := extended_gcd_spec a m
  simp only [mod_inverse, h1]
  by_cases h : Nat.gcd a m = 1 <;> simp [h]

/-- When `gcd a m = 1` and `0 < m`, `mod_inverse` returns a modular inverse. -/
theorem mod_inverse_spec (a m : ℕ) (h : Nat.gcd a m = 1) (hm : 0 < m) :
    ∃ x, mod_inverse a m = some x ∧ a * x ≡ 1 [MOD m] := by
  obtain ⟨h1, h2⟩ := extended_gcd_spec a m
  refine ⟨((extended_gcd a m).2.1 % (m : ℤ)).toNat, ?_, ?_⟩
  · rw [mod_inverse]
    simp [h1, h]
  · have hmz : (m : ℤ) ≠ 0 := by exact_mod_cast hm.ne'
    have hX : ((((extended_gcd a m).2.1 % (m : ℤ)).toNat : ℤ))
        = (extended_gcd a m).2.1 % (m : ℤ) :=
      Int.toNat_of_nonneg (Int.emod_nonneg _ hmz)
    rw [← Int.natCast_modEq_iff]
    push_cast [hX]
    calc (a : ℤ) * ((extended_gcd a m).2.1 % (m : ℤ))
        ≡ (a : ℤ) * (extended_gcd a m).2.1 [ZMOD (m : ℤ)] :=
          Int.ModEq.mul_left _ (Int.emod_emod_of_dvd _ dvd_rfl)
      _ ≡ 1 [ZMOD (m : ℤ)] := by
          rw [Int.modEq_iff_dvd]
          refine ⟨(extended_gcd a m).2.2, ?_⟩
          have h3 : ((extended_gcd a m).1 : ℤ) = 1 := by rw [h1, h]; norm_num
          linear_combination -h3 - h2

/-! ### Number-theoretic core of Paillier decryption -/

/-- Binomial congruence: `(N+1)^k ≡ 1 + k·N (mod N²)`. -/
theorem one_add_pow_mod_sq (N k : ℕ) : (N + 1) ^ k ≡ 1 + k * N [MOD N * N] := by
  induction k with
  | zero => simpa using Nat.ModEq.refl 1
  | succ k ih =>
    calc (N + 1) ^ (k + 1) = (N + 1) ^ k * (N + 1) := by ring
      _ ≡ (1 + k * N) * (N + 1) [MOD N * N] := ih.mul_right _
      _ = (1 + (k + 1) * N) + k * (N * N) := by ring
      _ ≡ 1 + (k + 1) * N [MOD N * N] := Nat.add_mul_mod_self_right _ _ _

/-- Value of the `L` function on powers of `N + 1` reduced mod `N²`. -/
theorem L_pow_g (N k : ℕ) (hN : 2 ≤ N) :
    L ((N + 1) ^ k % (N * N)) N = k % N := by
  have h2 : (N + 1) ^ k % (N * N) = (1 + k * N) % (N * N) := one_add_pow_mod_sq N k
  have hk : k % N + N * (k / N) = k := Nat.mod_add_div k N
  have hsplit : 1 + k * N = 1 + k % N * N + k / N * (N * N) := by
    conv_lhs => rw [← hk]
    ring
  have hlt : k % N < N := Nat.mod_lt k (by omega)
  have h4 : k % N * N + N ≤ N * N := by
    have h5 : (k % N + 1) * N ≤ N * N := Nat.mul_le_mul_right N (Nat.succ_le_of_lt hlt)
    calc k % N * N + N = (k % N + 1) * N := by ring
      _ ≤ N * N := h5
  have h3 : (1 + k * N) % (N * N) = 1 + k % N * N := by
    rw [hsplit, Nat.add_mul_mod_self_right]
    exact Nat.mod_eq_of_lt (by omega)
  rw [h2, h3, L, Nat.add_sub_cancel_left, Nat.mul_div_cancel _ (by omega)]

/-- Euler's theorem modulo the square of a prime, for any exponent divisible
by `a·(a-1) = φ(a²)`. -/
theorem pow_euler_sq (a s t : ℕ) (ha : a.Prime) (hsa : Nat.Coprime s a)
    (hdvd : a * (a - 1) ∣ t) : s ^ t ≡ 1 [MOD a ^ 2] := by
  have hsa2 : Nat.Coprime s (a ^ 2) := hsa.pow_right 2
  have htot : (a ^ 2).totient = a * (a - 1) := by
    rw [Nat.totient_prime_pow ha (by norm_num)]
    norm_num
  have he : s ^ (a * (a - 1)) ≡ 1 [MOD a ^ 2] := by
    have h := Nat.ModEq.pow_totient hsa2
    rwa [htot] at h
  obtain ⟨u, hu⟩ := hdvd
  calc s ^ t = (s ^ (a * (a - 1))) ^ u := by rw [hu, pow_mul]
    _ ≡ 1 ^ u [MOD a ^ 2] := he.pow u
    _ = 1 := one_pow u

/-- The Carmichael step of Paillier: for `s` coprime to `n = p·q`,
`s^(n·λ) ≡ 1 (mod n²)` with `λ = lcm(p-1, q-1)`. -/
theorem pow_n_lambda_eq_one (s p q : ℕ) (hp : p.Prime) (hq : q.Prime)
    (hpq : p ≠ q) (hs : Nat.Coprime s (p * q)) :
    s ^ (p * q * Nat.lcm (p - 1) (q - 1)) ≡ 1 [MOD p * q * (p * q)] := by
  have hsp : Nat.Coprime s p := Nat.Coprime.coprime_dvd_right (dvd_mul_right p q) hs
  have hsq : Nat.Coprime s q := Nat.Coprime.coprime_dvd_right (dvd_mul_left q p) hs
  have hdp : p * (p - 1) ∣ p * q * Nat.lcm (p - 1) (q - 1) := by
    obtain ⟨u, hu⟩ := Nat.dvd_lcm_left (p - 1) (q - 1)
    exact ⟨q * u, by rw [hu]; ring⟩
  have hdq : q * (q - 1) ∣ p * q * Nat.lcm (p - 1) (q - 1) := by
    obtain ⟨u, hu⟩ := Nat.dvd_lcm_right (p - 1) (q - 1)
    exact ⟨p * u, by rw [hu]; ring⟩
  have h1 := pow_euler_sq p s _ hp hsp hdp
  have h2 := pow_euler_sq q s _ hq hsq hdq
  have hcop2 : Nat.Coprime (p ^ 2) (q ^ 2) :=
    Nat.Coprime.pow 2 2 ((Nat.coprime_primes hp hq).mpr hpq)
  have h := (Nat.modEq_and_modEq_iff_modEq_mul hcop2).mp ⟨h1, h2⟩
  have heq : p ^ 2 * q ^ 2 = p * q * (p * q) := by ring
  rwa [heq] at h

/-- A Paillier key pair is valid when the primes are distinct and `λ` is
invertible modulo `n` (the constructor's `mod_inverse` call succeeds). -/
def ValidKey (c : PaillierCrypto) : Prop :=
  c.p.Prime ∧ c.q.Prime ∧ c.p ≠ c.q ∧ Nat.gcd c.lambda_val c.n = 1

instance (c : PaillierCrypto) : Decidable (ValidKey c) := by
  unfold ValidKey; infer_instance

theorem ValidKey.n_ge_two {c : PaillierCrypto} (h : ValidKey c) : 2 ≤ c.n := by
  obtain ⟨hp, hq, -, -⟩ := h
  calc 2 ≤ 2 * 2 := by norm_num
    _ ≤ c.p * c.q := Nat.mul_le_mul hp.two_le hq.two_le

/-- Master decryption lemma: any ciphertext congruent to `g^k · s^n (mod n²)`
with `gcd(s, n) = 1` decrypts, under a valid key, to `k mod n`. -/
theorem decrypt_spec (c : PaillierCrypto) (hv : ValidKey c) (k s ct : ℕ)
    (hs : Nat.gcd s c.n = 1)
    (hct : ct ≡ c.g ^ k * s ^ c.n [MOD c.n_squared]) :
    c.decrypt ct = some (k % c.n) := by
  obtain ⟨hp, hq, hpq, hl⟩ := hv
  have hn2 : 2 ≤ c.n := ValidKey.n_ge_two ⟨hp, hq, hpq, hl⟩
  -- the constructor's μ
  have hLg : L (c.g ^ c.lambda_val % c.n_squared) c.n = c.lambda_val % c.n :=
    L_pow_g c.n c.lambda_val hn2
  have hgcd : Nat.gcd (c.lambda_val % c.n) c.n = 1 := by
    rw [← Nat.gcd_rec, Nat.gcd_comm]
    exact hl
  obtain ⟨μ, hμsome, hμ⟩ := mod_inverse_spec _ _ hgcd (by omega)
  -- the exponentiated ciphertext
  have hcarm : s ^ (c.n * c.lambda_val) ≡ 1 [MOD c.n_squared] := by
    have h := pow_n_lambda_eq_one s c.p c.q hp hq hpq hs
    exact h
  have hpow : ct ^ c.lambda_val ≡ c.g ^ (k * c.lambda_val) [MOD c.n_squared] := by
    calc ct ^ c.lambda_val
        ≡ (c.g ^ k * s ^ c.n) ^ c.lambda_val [MOD c.n_squared] := hct.pow _
      _ = c.g ^ (k * c.lambda_val) * s ^ (c.n * c.lambda_val) := by
          rw [mul_pow, ← pow_mul, ← pow_mul]
      _ ≡ c.g ^ (k * c.lambda_val) * 1 [MOD c.n_squared] :=
          Nat.ModEq.mul_left _ hcarm
      _ = c.g ^ (k * c.lambda_val) := mul_one _
  have hLct : L (ct ^ c.lambda_val % c.n_squared) c.n = k * c.lambda_val % c.n := by
    have hmods : ct ^ c.lambda_val % c.n_squared
        = c.g ^ (k * c.lambda_val) % c.n_squared := hpow
    rw [hmods]
    exact L_pow_g c.n (k * c.lambda_val) hn2
  rw [PaillierCrypto.decrypt, PaillierCrypto.mu, hLg, hμsome, Option.map_some',
    hLct]
  congr 1
  calc k * c.lambda_val % c.n * μ
      ≡ k * c.lambda_val * μ [MOD c.n] := (Nat.mod_modEq _ _).mul_right μ
    _ = k * (c.lambda_val * μ) := by ring
    _ ≡ k * (c.lambda_val % c.n * μ) [MOD c.n] :=
        Nat.ModEq.mul_left k ((Nat.mod_modEq _ _).symm.mul_right μ)
    _ ≡ k * 1 [MOD c.n] := Nat.ModEq.mul_left k hμ
    _ = k := mul_one k

/-- `encrypt` on an in-range natural plaintext reduces to the Paillier
formula `g^m · r^n mod n²`. -/
theorem encrypt_nat (c : PaillierCrypto) (m r : ℕ) (hm : m < c.n) :
    c.encrypt (m : ℤ) r
      = some (c.g ^ m % c.n_squared * (r ^ c.n % c.n_squared) % c.n_squared) := by
  rw [PaillierCrypto.encrypt, if_neg (by exact_mod_cast Nat.not_le.mpr hm),
    PaillierCrypto.pow_mod, if_pos (Int.natCast_nonneg m)]
  simp

/-- The ciphertext produced by `encrypt` is congruent to `g^m · r^n mod n²`. -/
theorem encrypt_ciphertext_modeq (c : PaillierCrypto) (m r : ℕ) :
    c.g ^ m % c.n_squared * (r ^ c.n % c.n_squared) % c.n_squared
      ≡ c.g ^ m * r ^ c.n [MOD c.n_squared] :=
  (Nat.mod_modEq _ _).trans ((Nat.mod_modEq _ _).mul (Nat.mod_modEq _ _))

/-- `add_encrypted` respects congruence of its arguments mod `n²`. -/
theorem add_encrypted_modeq (c : PaillierCrypto) (x y gx gy : ℕ)
    (hx : x ≡ gx [MOD c.n_squared]) (hy : y ≡ gy [MOD c.n_squared]) :
    c.add_encrypted x y ≡ gx * gy [MOD c.n_squared] :=
  (Nat.mod_modEq _ _).trans (hx.mul hy)

/-! ### C1, C2, C3: functional correctness of the cryptosystem -/

/-- C1: for every valid key pair (`n = p·q` with `p ≠ q` prime, `g = n+1`,
`λ = lcm(p-1, q-1)`, `μ` the modular inverse computed by the constructor),
every plaintext `0 ≤ m < n` and every blinding factor `r` with
`gcd(r, n) = 1`, `decrypt (encrypt m) = m` exactly. -/
theorem C1_round_trip (c : PaillierCrypto) (m r : ℕ) (hv : ValidKey c)
    (hm : m < c.n) (hr : Nat.gcd r c.n = 1) :
    (c.encrypt (m : ℤ) r).bind c.decrypt = some m := by
  rw [encrypt_nat c m r hm, Option.some_bind]
  have h := decrypt_spec c hv m r _ hr (encrypt_ciphertext_modeq c m r)
  rwa [Nat.mod_eq_of_lt hm] at h

/-- Witness for C1 at `p = 3`, `q = 5`, `m = 7`, `r = 2`. -/
theorem C1_round_trip_witness :
    ((PaillierCrypto.mk 3 5).encrypt (7 : ℤ) 2).bind
      (PaillierCrypto.mk 3 5).decrypt = some 7 :=
  C1_round_trip (PaillierCrypto.mk 3 5) 7 2
    ⟨by norm_num, by norm_num, by decide, by decide⟩ (by decide) (by decide)

/-- C2: for every valid key pair, all plaintexts `a, b < n` and any blinding
factors of the two encryptions,
`decrypt (add_encrypted (encrypt a) (encrypt b)) = (a + b) mod n`. -/
theorem C2_homomorphic_addition (c : PaillierCrypto) (a b r1 r2 : ℕ)
    (hv : ValidKey c) (ha : a < c.n) (hb : b < c.n)
    (hr1 : Nat.gcd r1 c.n = 1) (hr2 : Nat.gcd r2 c.n = 1) :
    (c.encrypt (a : ℤ) r1).bind (fun c1 =>
      (c.encrypt (b : ℤ) r2).bind (fun c2 =>
        c.decrypt (c.add_encrypted c1 c2))) = some ((a + b) % c.n) := by
  rw [encrypt_nat c a r1 ha, encrypt_nat c b r2 hb, Option.some_bind,
    Option.some_bind]
  refine decrypt_spec c hv (a + b) (r1 * r2) _ (Nat.Coprime.mul hr1 hr2) ?_
  have h := add_encrypted_modeq c _ _ _ _ (encrypt_ciphertext_modeq c a r1)
    (encrypt_ciphertext_modeq c b r2)
  have heq : c.g ^ a * r1 ^ c.n * (c.g ^ b * r2 ^ c.n)
      = c.g ^ (a + b) * (r1 * r2) ^ c.n := by
    rw [pow_add, mul_pow]; ring
  rwa [heq] at h

/-- Witness for C2 at `p = 3`, `q = 5`, `a = 5`, `b = 7`, `r1 = 2`, `r2 = 4`. -/
theorem C2_homomorphic_addition_witness :
    ((PaillierCrypto.mk 3 5).encrypt (5 : ℤ) 2).bind (fun c1 =>
      ((PaillierCrypto.mk 3 5).encrypt (7 : ℤ) 4).bind (fun c2 =>
        (PaillierCrypto.mk 3 5).decrypt
          ((PaillierCrypto.mk 3 5).add_encrypted c1 c2)))
      = some ((5 + 7) % (PaillierCrypto.mk 3 5).n) :=
  C2_homomorphic_addition (PaillierCrypto.mk 3 5) 5 7 2 4
    ⟨by norm_num, by norm_num, by decide, by decide⟩ (by decide) (by decide)
    (by decide) (by decide)

/-- C3: for every valid key pair, plaintext `a < n` and non-negative constant
`k`, `decrypt (add_constant (encrypt a) k) = (a + k) mod n` and
`decrypt (multiply_constant (encrypt a) k) = (a · k) mod n`. -/
theorem C3_scalar_operations (c : PaillierCrypto) (a k r : ℕ) (hv : ValidKey c)
    (ha : a < c.n) (hr : Nat.gcd r c.n = 1) :
    (c.encrypt (a : ℤ) r).bind (fun ct => c.decrypt (c.add_constant ct k))
        = some ((a + k) % c.n) ∧
      (c.encrypt (a : ℤ) r).bind (fun ct => c.decrypt (c.multiply_constant ct k))
        = some (a * k % c.n) := by
  rw [encrypt_nat c a r ha]
  constructor
  · rw [Option.some_bind]
    refine decrypt_spec c hv (a + k) r _ hr ?_
    have h : c.add_constant
        (c.g ^ a % c.n_squared * (r ^ c.n % c.n_squared) % c.n_squared) k
        ≡ c.g ^ a * r ^ c.n * c.g ^ k [MOD c.n_squared] :=
      (Nat.mod_modEq _ _).trans
        ((encrypt_ciphertext_modeq c a r).mul (Nat.mod_modEq _ _))
    have heq : c.g ^ a * r ^ c.n * c.g ^ k = c.g ^ (a + k) * r ^ c.n := by
      rw [pow_add]; ring
    rwa [heq] at h
  · rw [Option.some_bind]
    refine decrypt_spec c hv (a * k) (r ^ k) _ (Nat.Coprime.pow_left k hr) ?_
    have h : c.multiply_constant
        (c.g ^ a % c.n_squared * (r ^ c.n % c.n_squared) % c.n_squared) k
        ≡ (c.g ^ a * r ^ c.n) ^ k [MOD c.n_squared] :=
      (Nat.mod_modEq _ _).trans ((encrypt_ciphertext_modeq c a r).pow k)
    have heq : (c.g ^ a * r ^ c.n) ^ k = c.g ^ (a * k) * (r ^ k) ^ c.n := by
      rw [mul_pow]; ring
    rwa [heq] at h

/-- Witness for C3 at `p = 3`, `q = 5`, `a = 6`, `k = 3`, `r = 2`. -/
theorem C3_scalar_operations_witness :
    ((PaillierCrypto.mk 3 5).encrypt (6 : ℤ) 2).bind (fun ct =>
        (PaillierCrypto.mk 3 5).decrypt ((PaillierCrypto.mk 3 5).add_constant ct 3))
        = some ((6 + 3) % (PaillierCrypto.mk 3 5).n) ∧
      ((PaillierCrypto.mk 3 5).encrypt (6 : ℤ) 2).bind (fun ct =>
        (PaillierCrypto.mk 3 5).decrypt
          ((PaillierCrypto.mk 3 5).multiply_constant ct 3))
        = some (6 * 3 % (PaillierCrypto.mk 3 5).n) :=
  C3_scalar_operations (PaillierCrypto.mk 3 5) 6 3 2
    ⟨by norm_num, by norm_num, by decide, by decide⟩ (by decide) (by decide)

/-! ### C5: the plaintext range check -/

/-- `g = n + 1` is invertible modulo `n²`. -/
theorem g_coprime_n_squared (c : PaillierCrypto) :
    Nat.Coprime c.g c.n_squared := by
  have h1 : Nat.Coprime (c.n + 1) c.n := by
    rw [Nat.add_comm]
    exact Nat.coprime_add_self_left.mpr (Nat.gcd_one_left _)
  exact Nat.Coprime.mul_right h1 h1

/-- C5 counterexample: with `p = 3`, `q = 5` the negative plaintext `-1`
lies outside `[0, n)` yet `encrypt` does NOT raise — it produces a
ciphertext (the claim says every negative plaintext is rejected). -/
theorem C5_counterexample :
    ((PaillierCrypto.mk 3 5).encrypt (-1 : ℤ) 2).isSome = true := by
  rw [PaillierCrypto.encrypt, if_neg (by decide), PaillierCrypto.pow_mod,
    if_neg (by decide)]
  rw [Option.isSome_map', Option.isSome_map', mod_inverse_isSome]
  decide

/-- C5 (amended): `encrypt` raises exactly when the plaintext is `≥ n`.
The code never checks the lower bound: a negative plaintext passes the guard
and, because `g = n + 1` is invertible modulo `n²`, Python's three-argument
`pow` succeeds on the negative exponent, so a ciphertext is produced. -/
theorem C5_range_check_amended (c : PaillierCrypto) (m : ℤ) (r : ℕ)
    (hp : c.p.Prime) (hq : c.q.Prime) :
    c.encrypt m r = none ↔ (c.n : ℤ) ≤ m := by
  rw [PaillierCrypto.encrypt]
  by_cases h : (c.n : ℤ) ≤ m
  · simp [h]
  · simp only [h, if_false, iff_false]
    rw [PaillierCrypto.pow_mod]
    by_cases h0 : 0 ≤ m
    · simp [h0]
    · simp only [h0, if_false]
      have hsq : 0 < c.n_squared := by
        have h2 : 2 ≤ c.n := by
          calc 2 ≤ 2 * 2 := by norm_num
            _ ≤ c.p * c.q := Nat.mul_le_mul hp.two_le hq.two_le
        have : 0 < c.n * c.n := by positivity
        exact this
      have hg : Nat.gcd (c.g % c.n_squared) c.n_squared = 1 := by
        rw [← Nat.gcd_rec]
        rw [Nat.gcd_comm]
        exact g_coprime_n_squared c
      obtain ⟨x, hx, -⟩ := mod_inverse_spec _ _ hg hsq
      simp [hx]

/-- Witness for the amended C5 at `p = 3`, `q = 5`, `m = -1`, `r = 2`. -/
theorem C5_range_check_amended_witness :
    (PaillierCrypto.mk 3 5).encrypt (-1 : ℤ) 2 = none
      ↔ (((PaillierCrypto.mk 3 5).n : ℤ) ≤ (-1 : ℤ)) :=
  C5_range_check_amended (PaillierCrypto.mk 3 5) (-1) 2 (by norm_num) (by norm_num)

/-! ### Feature extraction (`PrivacyPreservingAnalytics.encrypt_user_data`) -/

/-- `str_starts needle hay`: does `hay` start with `needle`? -/
def str_starts : List Char → List Char → Bool
  | [], _ => true
  | _ :: _, [] => false
  | c :: cs, h :: hs => c == h && str_starts cs hs

/-- Python's substring containment `needle in hay` on character lists. -/
def str_has_sub (needle : List Char) : List Char → Bool
  | [] => needle.isEmpty
  | h :: hs => str_starts needle (h :: hs) || str_has_sub needle hs

/-- `marker in site` for strings. -/
def site_contains (marker site : String) : Bool :=
  str_has_sub marker.data site.data

/-- `self.site_categories["short_video"]`. -/
def short_video_sites : List String :=
  ["tiktok.com", "youtube.com/shorts", "instagram.com/reels",
   "snapchat.com", "vimeo.com/shorts", "triller.co", "byte.co",
   "dubsmash.com", "likee.com", "funimate.com"]

/-- `self.site_categories["ecommerce"]`. -/
def ecommerce_sites : List String :=
  ["amazon.com", "ebay.com", "walmart.com", "aliexpress.com",
   "etsy.com", "shopify.com", "bestbuy.com", "target.com",
   "newegg.com", "wayfair.com", "overstock.com", "homedepot.com"]

/-- `is_video = any(video_site in site for video_site in ...)`. -/
def is_video (site : String) : Bool :=
  short_video_sites.any (fun v => site_contains v site)

/-- `is_ecommerce = any(ecomm_site in site for ecomm_site in ...)`. -/
def is_ecommerce (site : String) : Bool :=
  ecommerce_sites.any (fun v => site_contains v site)

/-- The plaintext feature counts of one user. -/
structure FeatureVector where
  total_visits : ℕ
  short_video_visits : ℕ
  ecommerce_visits : ℕ
  ecommerce_after_video : ℕ
deriving DecidableEq

/-- The scan of `encrypt_user_data` over the event list, carrying the three
counters and the `last_was_video` boolean, in the exact statement order of
the Python loop body. -/
def extractLoop : List String → ℕ → ℕ → ℕ → Bool → ℕ × ℕ × ℕ
  | [], sv, ec, eav, _ => (sv, ec, eav)
  | site :: rest, sv, ec, eav, last_was_video =>
    let isv := is_video site
    let sv1 := if isv then sv + 1 else sv
    let last1 := if isv then true else last_was_video
    let ise := is_ecommerce site
    let ec1 := if ise then ec + 1 else ec
    let eav1 := if ise && last1 then eav + 1 else eav
    let last2 := if isv then last1 else false
    extractLoop rest sv1 ec1 eav1 last2

/-- The plaintext part of `encrypt_user_data`: the counts it computes before
encrypting them (events carry only their `site` field, the only one read). -/
def extract_features (user_data : List String) : FeatureVector :=
  match extractLoop user_data 0 0 0 false with
  | (sv, ec, eav) => ⟨user_data.length, sv, ec, eav⟩

/-- Modelled from the spec as amended by C4's counterexample: an event counts
a transition when it matches category B and either the immediately preceding
event matched category A or the event itself matches category A (the carried
boolean is updated before the category-B check); the boolean handed to the
next event is exactly "this event matched category A". -/
def transitions_spec (last_was_video : Bool) : List String → ℕ
  | [] => 0
  | site :: rest =>
    (if is_ecommerce site && (is_video site || last_was_video) then 1 else 0)
      + transitions_spec (is_video site) rest

/-- Full characterisation of the scan. -/
theorem extractLoop_spec (events : List String) :
    ∀ (sv ec eav : ℕ) (last : Bool),
      extractLoop events sv ec eav last
        = (sv + events.countP (fun s => is_video s),
           ec + events.countP (fun s => is_ecommerce s),
           eav + transitions_spec last events) := by
  induction events with
  | nil => intro sv ec eav last; simp [extractLoop, transitions_spec]
  | cons site rest ih =>
    intro sv ec eav last
    cases last <;> by_cases hv : is_video site = true <;>
      by_cases he : is_ecommerce site = true <;>
      simp [extractLoop, ih, transitions_spec, List.countP_cons, hv, he,
        Prod.ext_iff] <;> omega

/-- C4 counterexample: a single event whose site matches both categories
(`"byte.co"` is a category-A marker, `"ebay.com"` a category-B marker).
The claim says the transition count stays `0` because there is no preceding
event; the code counts `1`. -/
theorem C4_counterexample :
    (extract_features ["byte.coebay.com"]).ecommerce_after_video = 1 := by
  decide

/-- C4 (amended): the transition counter increments exactly on events that
match category B while either the preceding event or the event itself matches
category A; A→A→B still counts and A→neither→B still does not, but a first
event matching both categories does count. -/
theorem C4_transition_counting_amended (events : List String) :
    (extract_features events).ecommerce_after_video
      = transitions_spec false events := by
  rw [extract_features, extractLoop_spec events 0 0 0 false]
  simp

/-- C10: the extracted feature vector satisfies the count invariants. -/
theorem C10_feature_vector_invariants (events : List String) :
    (extract_features events).total_visits = events.length ∧
      (extract_features events).short_video_visits
        ≤ (extract_features events).total_visits ∧
      (extract_features events).ecommerce_visits
        ≤ (extract_features events).total_visits ∧
      (extract_features events).ecommerce_after_video
        ≤ (extract_features events).ecommerce_visits := by
  have htrans : ∀ (l : List String) (b : Bool),
      transitions_spec b l ≤ l.countP (fun s => is_ecommerce s) := by
    intro l
    induction l with
    | nil => intro b; simp [transitions_spec]
    | cons s rest ih =>
      intro b
      rw [transitions_spec, List.countP_cons]
      have hr := ih (is_video s)
      by_cases he : is_ecommerce s = true
      · by_cases hb : (is_video s || b) = true <;> simp [he, hb] <;> omega
      · simp [he]
        omega
  rw [extract_features, extractLoop_spec events 0 0 0 false]
  refine ⟨rfl, ?_, ?_, ?_⟩
  · simpa using List.countP_le_length _
  · simpa using List.countP_le_length _
  · simpa using htrans events false

/-! ### Aggregation and analysis (`PrivacyPreservingAnalytics`) -/

/-- The per-user dictionary of four ciphertexts built by `encrypt_user_data`. -/
structure EncryptedFeatureVector where
  encrypted_total_visits : ℕ
  encrypted_short_video_visits : ℕ
  encrypted_ecommerce_visits : ℕ
  encrypted_ecommerce_after_video : ℕ
deriving DecidableEq

/-- One iteration of the aggregation loop: `add_encrypted` on each lane. -/
def combine (c : PaillierCrypto) (acc u : EncryptedFeatureVector) :
    EncryptedFeatureVector :=
  ⟨c.add_encrypted acc.encrypted_total_visits u.encrypted_total_visits,
   c.add_encrypted acc.encrypted_short_video_visits u.encrypted_short_video_visits,
   c.add_encrypted acc.encrypted_ecommerce_visits u.encrypted_ecommerce_visits,
   c.add_encrypted acc.encrypted_ecommerce_after_video
     u.encrypted_ecommerce_after_video⟩

/-- `PrivacyPreservingAnalytics.aggregate_encrypted_data`: starts from the
first user's vector and folds the rest in; the empty dict `{}` returned on
empty input is modelled as `none`. -/
def aggregate_encrypted_data (c : PaillierCrypto) :
    List EncryptedFeatureVector → Option EncryptedFeatureVector
  | [] => none
  | first :: rest => some (rest.foldl (combine c) first)

/-- The report assembled by `decrypt_and_analyze`; Python's float percentages
are modelled as exact rationals. -/
structure AnalyticsReport where
  total_visits : ℕ
  short_video_visits : ℕ
  ecommerce_visits : ℕ
  ecommerce_after_video : ℕ
  short_video_percentage : ℚ
  ecommerce_after_video_percentage : ℚ

/-- `PrivacyPreservingAnalytics.decrypt_and_analyze`.  On the empty aggregate
(`none`, Python's `{}`) the first key lookup raises `KeyError`, modelled as
`none`; an unusable `mu` propagates the same way.  The two percentages carry
the source's zero-denominator guards. -/
def decrypt_and_analyze (c : PaillierCrypto) :
    Option EncryptedFeatureVector → Option AnalyticsReport
  | none => none
  | some agg =>
    (c.decrypt agg.encrypted_total_visits).bind fun tv =>
    (c.decrypt agg.encrypted_short_video_visits).bind fun sv =>
    (c.decrypt agg.encrypted_ecommerce_visits).bind fun ec =>
    (c.decrypt agg.encrypted_ecommerce_after_video).map fun eav =>
    { total_visits := tv
      short_video_visits := sv
      ecommerce_visits := ec
      ecommerce_after_video := eav
      short_video_percentage := if 0 < tv then (sv : ℚ) / (tv : ℚ) * 100 else 0
      ecommerce_after_video_percentage :=
        if 0 < sv then (eav : ℚ) / (sv : ℚ) * 100 else 0 }

/-- C6: aggregating no users yields the explicit empty aggregate (no default
zero ciphertext), and decrypting it surfaces an error, not an all-zero
report. -/
theorem C6_empty_aggregate (c : PaillierCrypto) :
    aggregate_encrypted_data c [] = none ∧
      decrypt_and_analyze c (aggregate_encrypted_data c []) = none :=
  ⟨rfl, rfl⟩

/-! ### C7: order independence of the homomorphic fold -/

/-- Reduced-product helper: `a % m · b % m = a · b % m`. -/
theorem mod_mul_left (a b m : ℕ) : a % m * b % m = a * b % m := by
  rw [Nat.mul_comm (a % m) b, Nat.mul_mod_mod, Nat.mul_comm]

/-- A nonempty left fold of `·*· % m` is the reduced product. -/
theorem foldl_mulmod (m : ℕ) :
    ∀ (l : List ℕ) (a : ℕ), l ≠ [] →
      List.foldl (fun x y => x * y % m) a l = a * l.prod % m := by
  intro l
  induction l with
  | nil => intro a h; exact absurd rfl h
  | cons b rest ih =>
    intro a h
    cases rest with
    | nil => simp
    | cons b2 r2 =>
      rw [List.foldl_cons, ih _ (List.cons_ne_nil _ _), mod_mul_left]
      congr 1
      simp only [List.prod_cons]
      ring

/-- The aggregation fold acts lane-wise. -/
theorem foldl_combine_lanes (c : PaillierCrypto) :
    ∀ (l : List EncryptedFeatureVector) (a : EncryptedFeatureVector),
      l.foldl (combine c) a =
        ⟨List.foldl (fun x y => x * y % c.n_squared) a.encrypted_total_visits
           (l.map EncryptedFeatureVector.encrypted_total_visits),
         List.foldl (fun x y => x * y % c.n_squared)
           a.encrypted_short_video_visits
           (l.map EncryptedFeatureVector.encrypted_short_video_visits),
         List.foldl (fun x y => x * y % c.n_squared) a.encrypted_ecommerce_visits
           (l.map EncryptedFeatureVector.encrypted_ecommerce_visits),
         List.foldl (fun x y => x * y % c.n_squared)
           a.encrypted_ecommerce_after_video
           (l.map EncryptedFeatureVector.encrypted_ecommerce_after_video)⟩ := by
  intro l
  induction l with
  | nil => intro a; rfl
  | cons u rest ih =>
    intro a
    rw [List.foldl_cons, ih]
    rfl

/-- Aggregation is invariant under permutation of the input list. -/
theorem aggregate_perm (c : PaillierCrypto) (l1 l2 : List EncryptedFeatureVector)
    (h : l1.Perm l2) :
    aggregate_encrypted_data c l1 = aggregate_encrypted_data c l2 := by
  cases l1 with
  | nil =>
    have h2 : l2 = [] := (List.Perm.nil_eq h).symm
    subst h2; rfl
  | cons x xs =>
    cases l2 with
    | nil =>
      have := h.length_eq
      simp at this
    | cons y ys =>
      cases xs with
      | nil =>
        have h2 : y :: ys = [x] := List.perm_singleton.mp h.symm
        rw [h2]
      | cons x2 xs2 =>
        have hys : ys ≠ [] := by
          have hl := h.length_eq
          intro hc
          subst hc
          simp at hl
        rw [aggregate_encrypted_data, aggregate_encrypted_data,
          foldl_combine_lanes, foldl_combine_lanes]
        have hlane : ∀ f : EncryptedFeatureVector → ℕ,
            List.foldl (fun u v => u * v % c.n_squared) (f x)
              ((x2 :: xs2).map f)
            = List.foldl (fun u v => u * v % c.n_squared) (f y) (ys.map f) := by
          intro f
          rw [foldl_mulmod _ _ _ (by simp), foldl_mulmod _ _ _ (by simp [hys])]
          have hprod : ((x :: x2 :: xs2).map f).prod = ((y :: ys).map f).prod :=
            (h.map f).prod_eq
          have hgoal : f x * (List.map f (x2 :: xs2)).prod
              = f y * (List.map f ys).prod := by
            simpa using hprod
          rw [hgoal]
        rw [hlane, hlane, hlane, hlane]

/-- C7: for a valid key, aggregating any permutation of a non-empty list of
encrypted feature vectors yields the same aggregate — hence the same
decrypted statistics — as the sequential left-to-right fold; equivalently
`add_encrypted` is commutative and associative modulo `n²`. -/
theorem C7_fold_order_independence (c : PaillierCrypto)
    (l1 l2 : List EncryptedFeatureVector) (hne : l1 ≠ []) (h : l1.Perm l2) :
    decrypt_and_analyze c (aggregate_encrypted_data c l1)
        = decrypt_and_analyze c (aggregate_encrypted_data c l2) ∧
      aggregate_encrypted_data c l1 = aggregate_encrypted_data c l2 ∧
      (∀ a b, c.add_encrypted a b = c.add_encrypted b a) ∧
      (∀ a b d, c.add_encrypted (c.add_encrypted a b) d
          = c.add_encrypted a (c.add_encrypted b d)) := by
  have hagg := aggregate_perm c l1 l2 h
  refine ⟨by rw [hagg], hagg, ?_, ?_⟩
  · intro a b
    unfold PaillierCrypto.add_encrypted
    rw [Nat.mul_comm]
  · intro a b d
    unfold PaillierCrypto.add_encrypted
    rw [mod_mul_left, Nat.mul_mod_mod, Nat.mul_assoc]

/-- Witness for C7: two swapped two-user lists under the `p = 3`, `q = 5`
key. -/
theorem C7_fold_order_independence_witness :
    decrypt_and_analyze (PaillierCrypto.mk 3 5)
        (aggregate_encrypted_data (PaillierCrypto.mk 3 5)
          [EncryptedFeatureVector.mk 1 2 3 4, EncryptedFeatureVector.mk 5 6 7 8])
      = decrypt_and_analyze (PaillierCrypto.mk 3 5)
        (aggregate_encrypted_data (PaillierCrypto.mk 3 5)
          [EncryptedFeatureVector.mk 5 6 7 8, EncryptedFeatureVector.mk 1 2 3 4]) ∧
    aggregate_encrypted_data (PaillierCrypto.mk 3 5)
        [EncryptedFeatureVector.mk 1 2 3 4, EncryptedFeatureVector.mk 5 6 7 8]
      = aggregate_encrypted_data (PaillierCrypto.mk 3 5)
        [EncryptedFeatureVector.mk 5 6 7 8, EncryptedFeatureVector.mk 1 2 3 4] ∧
    (∀ a b, (PaillierCrypto.mk 3 5).add_encrypted a b
        = (PaillierCrypto.mk 3 5).add_encrypted b a) ∧
    (∀ a b d, (PaillierCrypto.mk 3 5).add_encrypted
          ((PaillierCrypto.mk 3 5).add_encrypted a b) d
        = (PaillierCrypto.mk 3 5).add_encrypted a
          ((PaillierCrypto.mk 3 5).add_encrypted b d)) :=
  C7_fold_order_independence (PaillierCrypto.mk 3 5)
    [EncryptedFeatureVector.mk 1 2 3 4, EncryptedFeatureVector.mk 5 6 7 8]
    [EncryptedFeatureVector.mk 5 6 7 8, EncryptedFeatureVector.mk 1 2 3 4]
    (List.cons_ne_nil _ _)
    (List.Perm.swap (EncryptedFeatureVector.mk 5 6 7 8)
      (EncryptedFeatureVector.mk 1 2 3 4) [])

/-! ### C8: zero-denominator guards in `decrypt_and_analyze` -/

/-- C8: `decrypt_and_analyze` never divides by zero: whenever the key's `mu`
exists, decrypting a present aggregate always produces a report, the
category-A percentage is exactly `0` when the decrypted `total_visits` is
`0`, and the transition percentage is exactly `0` when the decrypted
category-A count is `0`. -/
theorem C8_zero_guard (c : PaillierCrypto) (agg : EncryptedFeatureVector)
    (hm : c.mu.isSome = true) :
    ∃ r, decrypt_and_analyze c (some agg) = some r ∧
      (r.total_visits = 0 → r.short_video_percentage = 0) ∧
      (r.short_video_visits = 0 → r.ecommerce_after_video_percentage = 0) := by
  obtain ⟨μ, hμeq⟩ := Option.isSome_iff_exists.mp hm
  have hdec : ∀ ct, c.decrypt ct
      = some (L (ct ^ c.lambda_val % c.n_squared) c.n * μ % c.n) := by
    intro ct
    rw [PaillierCrypto.decrypt, hμeq, Option.map_some']
  set dec := fun ct : ℕ => L (ct ^ c.lambda_val % c.n_squared) c.n * μ % c.n
    with hdecdef
  refine ⟨{ total_visits := dec agg.encrypted_total_visits
            short_video_visits := dec agg.encrypted_short_video_visits
            ecommerce_visits := dec agg.encrypted_ecommerce_visits
            ecommerce_after_video := dec agg.encrypted_ecommerce_after_video
            short_video_percentage :=
              if 0 < dec agg.encrypted_total_visits then
                (dec agg.encrypted_short_video_visits : ℚ)
                  / (dec agg.encrypted_total_visits : ℚ) * 100
              else 0
            ecommerce_after_video_percentage :=
              if 0 < dec agg.encrypted_short_video_visits then
                (dec agg.encrypted_ecommerce_after_video : ℚ)
                  / (dec agg.encrypted_short_video_visits : ℚ) * 100
              else 0 }, ?_, ?_, ?_⟩
  · rw [decrypt_and_analyze, hdec, hdec, hdec, hdec, Option.some_bind,
      Option.some_bind, Option.some_bind, Option.map_some']
  · intro h0
    dsimp only at h0 ⊢
    rw [h0]
    simp
  · intro h0
    dsimp only at h0 ⊢
    rw [h0]
    simp

/-- Witness for C8 under the `p = 3`, `q = 5` key with the all-ones
aggregate. -/
theorem C8_zero_guard_witness :
    ∃ r, decrypt_and_analyze (PaillierCrypto.mk 3 5)
          (some (EncryptedFeatureVector.mk 1 1 1 1)) = some r ∧
      (r.total_visits = 0 → r.short_video_percentage = 0) ∧
      (r.short_video_visits = 0 → r.ecommerce_after_video_percentage = 0) :=
  C8_zero_guard (PaillierCrypto.mk 3 5) (EncryptedFeatureVector.mk 1 1 1 1)
    (by rw [PaillierCrypto.mu, mod_inverse_isSome]; decide)

/-! ### C9: the sampling orchestrator -/

/-- Modelled from the spec: Python's `random.sample(population, k)` draws `k`
distinct elements of the population without replacement, raising when `k`
exceeds the population size.  The uniformly-random choice of the sample is
not modelled; the draw is taken deterministically as the first `k`
identifiers. -/
def random_sample (population : List String) (k : ℕ) : Option (List String) :=
  if k ≤ population.length then some (population.take k) else none

/-- `sample_user_ids = random.sample(all_user_ids, min(sample_size,
len(all_user_ids)))` from `analyze_short_video_preference` /
`analyze_ecommerce_after_video`. -/
def sample_user_ids (all_user_ids : List String) (sample_size : ℕ) :
    Option (List String) :=
  random_sample all_user_ids (min sample_size all_user_ids.length)

/-- `results["users_sampled"] = len(sample_user_ids)`. -/
def users_sampled (all_user_ids : List String) (sample_size : ℕ) : Option ℕ :=
  (sample_user_ids all_user_ids sample_size).map List.length

/-- C9: for a duplicate-free population index and any requested size, the
orchestrator's draw succeeds (no failure on oversized requests), takes
`min(requested, population)` users, each distinct, and reports exactly that
clamped size as `users_sampled`. -/
theorem C9_sampling_clamp (ids : List String) (k : ℕ) (h : ids.Nodup) :
    ∃ s, sample_user_ids ids k = some s ∧ s.length = min k ids.length ∧
      s.Nodup ∧ users_sampled ids k = some (min k ids.length) := by
  have hmin : min k ids.length ≤ ids.length := Nat.min_le_right _ _
  have hlen : (ids.take (min k ids.length)).length = min k ids.length := by
    rw [List.length_take]
    omega
  refine ⟨ids.take (min k ids.length), ?_, hlen, ?_, ?_⟩
  · rw [sample_user_ids, random_sample, if_pos hmin]
  · exact List.Nodup.sublist (List.take_sublist _ _) h
  · rw [users_sampled, sample_user_ids, random_sample, if_pos hmin,
      Option.map_some', hlen]

/-- Witness for C9: a two-user population with an oversized request of `5`. -/
theorem C9_sampling_clamp_witness :
    ∃ s, sample_user_ids ["u1", "u2"] 5 = some s ∧
      s.length = min 5 (["u1", "u2"] : List String).length ∧
      s.Nodup ∧
      users_sampled ["u1", "u2"] 5
        = some (min 5 (["u1", "u2"] : List String).length) :=
  C9_sampling_clamp ["u1", "u2"] 5 (by decide)

end DSPC
